import Mathlib

/-!
Shallow embedding of the transcript-to-slide packing engine of `app.py`
(speaker-tagged presentation notes → bounded-length colorized slide chunks).

Text is modelled as `List Char`.  Python functions are translated one by one:
`clean_text`, `parse_notes_into_segments`, `_split_preserving_words`,
`pack_segments_into_chunks`, `get_color_for_name`, `add_page_indicator`
(as the page field of a slide descriptor) and `create_script_slides`.
The module-level mutable state `name_color_map` / `_auto_color_idx` is
modelled by an explicit `ColorState` threaded through the functions, with
the process-start value `freshColorState`; `create_script_slides` takes the
state it finds and returns the state it leaves behind, exactly as the
Python globals do.
-/

set_option autoImplicit false

abbrev Txt := List Char

/-- Whitespace as Python's `str.strip` / regex `\s` see it (ASCII whitespace
plus the Unicode space characters; the ones relevant to this program are the
ASCII ones and the ideographic space `U+3000`). -/
def isPySpace (c : Char) : Bool :=
  c = ' ' || c = '\t' || c = '\n' || c = '\r' || c = '\x0b' || c = '\x0c' ||
  c = '\x1c' || c = '\x1d' || c = '\x1e' || c = '\x1f' || c = '\x85' || c = '\xa0' ||
  c = ' ' || c = ' ' || c = ' ' || c = ' ' || c = ' ' ||
  c = ' ' || c = ' ' || c = ' ' || c = ' ' || c = ' ' ||
  c = ' ' || c = ' ' || c = ' ' || c = ' ' || c = ' ' ||
  c = ' ' || c = '　'

/-- Line-break characters recognised by Python's `str.splitlines`. -/
def isLineBreak (c : Char) : Bool :=
  c = '\n' || c = '\r' || c = '\x0b' || c = '\x0c' || c = '\x1c' || c = '\x1d' ||
  c = '\x1e' || c = '\x85' || c = ' ' || c = ' '

/-- Python `str.splitlines`: worker.  `cur` is the (reversed) current line.
A `"\r\n"` pair counts as a single break; a trailing break does not produce
an extra empty line. -/
def splitlinesGo (cur : Txt) : Txt → List Txt
  | [] => if cur.isEmpty then [] else [cur.reverse]
  | [c] =>
    if isLineBreak c then [cur.reverse]
    else [(c :: cur).reverse]
  | c :: d :: rest2 =>
    if isLineBreak c then
      if c = '\r' && d = '\n' then cur.reverse :: splitlinesGo [] rest2
      else cur.reverse :: splitlinesGo [] (d :: rest2)
    else splitlinesGo (c :: cur) (d :: rest2)

/-- Python `str.splitlines`. -/
def splitlines (t : Txt) : List Txt := splitlinesGo [] t

/-- Python `str.strip()`: drop leading and trailing whitespace. -/
def stripTxt (t : Txt) : Txt :=
  ((t.dropWhile isPySpace).reverse.dropWhile isPySpace).reverse

/-- `clean_text`: remove the `"\x0b"` control character, then strip. -/
def clean_text (t : Txt) : Txt :=
  stripTxt (t.filter (fun c => c ≠ '\x0b'))

/-- Python `re.match(r"《(.+?)》", line)`: the pattern is anchored at the
start of the line; `(.+?)` is non-greedy and at least one character, so a
match exists iff the line starts with `'《'` and some `'》'` occurs at index
`≥ 2`; the captured name runs to the first such `'》'`, and the returned
second component is the rest of the line after it (Python's `line[m.end():]`).
Lines contain no newline, so the `.`-does-not-match-newline restriction is
vacuous here. -/
def matchMarker : Txt → Option (Txt × Txt)
  | [] => none
  | c :: rest =>
    if c = '《' then
      match rest with
      | [] => none
      | d :: rest2 =>
        match rest2.findIdx? (fun x => x = '》') with
        | none => none
        | some j => some (d :: rest2.take j, rest2.drop (j + 1))
    else none

abbrev Seg := Option Txt × Txt

/-- Flush of the line buffer in `parse_notes_into_segments`: strip the joined
buffer and emit a segment only when the result is non-empty.  (The Python
code guards the flush with `if buffer:`, but an empty buffer joins and strips
to the empty string and emits nothing, so the guard is redundant.) -/
def emitSeg (segs : List Seg) (name : Option Txt) (buf : Txt) : List Seg :=
  let joined := stripTxt buf
  if joined = [] then segs else segs ++ [(name, joined)]

/-- The line loop of `parse_notes_into_segments`: a marker line flushes the
buffer, installs the new speaker and starts the buffer with the rest of the
line; a plain line is appended to the buffer. -/
def parseGo : List Txt → List Seg → Option Txt → Txt → List Seg
  | [], segs, name, buf => emitSeg segs name buf
  | line :: rest, segs, name, buf =>
    match matchMarker line with
    | some (n, after) => parseGo rest (emitSeg segs name buf) (some n) after
    | none => parseGo rest segs name (buf ++ line)

/-- The trailing merge pass of `parse_notes_into_segments`: a segment whose
speaker equals the speaker of the last merged segment is concatenated onto
it. -/
def mergeStep (acc : List Seg) (s : Seg) : List Seg :=
  match acc.getLast? with
  | some l => if l.1 = s.1 then acc.dropLast ++ [(l.1, l.2 ++ s.2)] else acc ++ [s]
  | none => [s]

/-- Merge adjacent same-speaker segments (the `merged` loop). -/
def mergeAdjacent (l : List Seg) : List Seg := l.foldl mergeStep []

/-- `parse_notes_into_segments`: split into lines, strip each, drop blank
lines, run the marker/buffer loop, then merge adjacent same-speaker
segments. -/
def parse_notes_into_segments (note : Txt) : List Seg :=
  let lines := ((splitlines note).map stripTxt).filter (fun l => !l.isEmpty)
  mergeAdjacent (parseGo lines [] none [])

/-- Boundary characters of the split regex `[、。．，,.?!\s]`. -/
def isBoundary (c : Char) : Bool :=
  c = '、' || c = '。' || c = '．' || c = '，' || c = ',' || c = '.' ||
  c = '?' || c = '!' || isPySpace c

/-- Length of the maximal boundary-character prefix (greedy `[、。．，,.?!\s]+`). -/
def boundaryPrefixLen : Txt → Nat
  | [] => 0
  | c :: cs => if isBoundary c then boundaryPrefixLen cs + 1 else 0

/-- The lookahead `(?=[^、。．，,.?!\s]*$)` applied to the remainder of the
window after the boundary run.  Python's `$` (no `re.MULTILINE`) matches at
the end of the string or just before a newline at the very end, so the
lookahead succeeds when the remainder is all non-boundary, or ends with a
single `'\n'` preceded only by non-boundary characters. -/
def lookaheadOk (rest : Txt) : Bool :=
  rest.all (fun c => !isBoundary c) ||
  (rest.getLast? = some '\n' && rest.dropLast.all (fun c => !isBoundary c))

/-- Attempt of the regex `[、。．，,.?!\s]+(?=[^、。．，,.?!\s]*$)` anchored at
the start of `w`, returning the end offset of the match.  The `+` is greedy;
backtracking it cannot help, because every shorter run leaves a boundary
character in the lookahead region (and `$` cannot fire there), so the match
at a position succeeds exactly when the maximal boundary run at that
position satisfies the lookahead. -/
def matchAt (w : Txt) : Option Nat :=
  let k := boundaryPrefixLen w
  if k = 0 then none
  else if lookaheadOk (w.drop k) then some k else none

/-- `re.search` of the split regex: try each start position left to right
and return the end offset of the first match. -/
def reSearchEnd : Txt → Option Nat
  | [] => none
  | c :: cs =>
    match matchAt (c :: cs) with
    | some k => some k
    | none => (reSearchEnd cs).map (· + 1)

/-- The cut position chosen for one window in `_split_preserving_words`:
the regex match end if the search succeeds, else the window length (which is
`min (remaining, limit)`, matching `end = min(len(s), start + limit)`). -/
def cutLen (w : Txt) : Nat :=
  match reSearchEnd w with
  | some e => e
  | none => w.length

/-- The `while start < len(s)` loop of `_split_preserving_words`, phrased on
the remaining suffix: take a window of at most `limit` characters, cut it at
`cutLen`, emit the cut prefix and continue on the rest.  `fuel` bounds the
number of iterations; the Python loop has no such bound, and indeed with
`limit = 0` it makes no progress, which the model reports as `none`. -/
def splitGo (limit : Nat) : Nat → Txt → Option (List Txt)
  | _, [] => some []
  | 0, _ :: _ => none
  | fuel + 1, c :: cs =>
    let r := c :: cs
    let cl := cutLen (r.take limit)
    (splitGo limit fuel (r.drop cl)).map (fun ps => r.take cl :: ps)

/-- `_split_preserving_words`: a string within the limit is a single piece;
otherwise run the window loop.  `s.length` iterations always suffice when
`limit ≥ 1` (each iteration consumes at least one character). -/
def split_preserving_words (s : Txt) (limit : Nat) : Option (List Txt) :=
  if s.length ≤ limit then some [s] else splitGo limit s.length s

abbrev Chunk := List Seg

/-- The mutable triple `chunks` / `cur` / `cur_len` of
`pack_segments_into_chunks`. -/
structure PackSt where
  chunks : List Chunk
  cur : Chunk
  curLen : Nat
deriving DecidableEq

/-- The inner `flush()`: append `cur` to `chunks` when non-empty. -/
def flushSt (st : PackSt) : PackSt :=
  if st.cur.isEmpty then st else ⟨st.chunks ++ [st.cur], [], 0⟩

/-- Tail of the piece loop body: `cur.append(...)`, `cur_len += need`, and
the `if cur_len >= max_len: flush()` check. -/
def packAppend (limit : Nat) (name : Option Txt) (piece : Txt) (st1 : PackSt) : PackSt :=
  let st2 : PackSt := ⟨st1.chunks, st1.cur ++ [(name, piece)], st1.curLen + piece.length⟩
  if limit ≤ st2.curLen then flushSt st2 else st2

/-- Body of the `for piece in pieces` loop: strip the piece, skip it when
empty, flush first when it does not fit into a non-empty current chunk
(`need > remain and cur`; as `need ≥ 1`, the Python signed comparison
`need > max_len - cur_len` agrees with the truncated `Nat` subtraction),
then append and flush on reaching the budget. -/
def packPiece (limit : Nat) (name : Option Txt) (st : PackSt) (piece0 : Txt) : PackSt :=
  let piece := stripTxt piece0
  if piece = [] then st
  else
    packAppend limit name piece
      (if limit - st.curLen < piece.length ∧ ¬ st.cur.isEmpty then flushSt st else st)

/-- Body of the `for name, text in segments` loop: split the segment's text
and pack the pieces in order.  `none` propagates the (never terminating)
`limit = 0` splitting case. -/
def packSeg (limit : Nat) (st : PackSt) (seg : Seg) : Option PackSt :=
  (split_preserving_words seg.2 limit).map (fun pieces => pieces.foldl (packPiece limit seg.1) st)

/-- `pack_segments_into_chunks`: fold the segment loop from the empty state
and flush the trailing chunk. -/
def pack_segments_into_chunks (segs : List Seg) (limit : Nat) : Option (List Chunk) :=
  (segs.foldlM (packSeg limit) ⟨[], [], 0⟩).map (fun st => (flushSt st).chunks)

/-- `MAX_CHARS_PER_SLIDE`. -/
def MAX_CHARS_PER_SLIDE : Nat := 150

/-- An RGB color (`RGBColor`). -/
structure RGB where
  r : Nat
  g : Nat
  b : Nat
deriving DecidableEq

/-- Default / fixed white. -/
def COLOR_WHITE : RGB := ⟨0xFF, 0xFF, 0xFF⟩

/-- `NAME_FIXED_COLORS`. -/
def NAME_FIXED_COLORS : List (Txt × RGB) :=
  [(("仲條").data, ⟨0x00, 0xFD, 0xFF⟩),
   (("三村").data, ⟨0xFF, 0xFF, 0xFF⟩),
   (("星野").data, ⟨0xFF, 0xFF, 0x00⟩)]

/-- `AUTO_COLOR_POOL`. -/
def AUTO_COLOR_POOL : List RGB :=
  [⟨0xFF, 0x40, 0xFF⟩, ⟨0xFF, 0xA5, 0x00⟩, ⟨0xFF, 0xFB, 0x00⟩]

/-- First-match lookup in an association list of names (Python `dict`
membership/indexing; keys are inserted at most once, so first match equals
dict lookup). -/
def lookupName (n : Txt) : List (Txt × RGB) → Option RGB
  | [] => none
  | (m, c) :: rest => if n = m then some c else lookupName n rest

/-- The module-level mutable pair `name_color_map` / `_auto_color_idx`. -/
structure ColorState where
  map : List (Txt × RGB)
  autoIdx : Nat
deriving DecidableEq

/-- The value of the globals at process start: empty map, cursor 0. -/
def freshColorState : ColorState := ⟨[], 0⟩

/-- `get_color_for_name`: empty/absent name → white; fixed table first; then
the memo map; otherwise take `AUTO_COLOR_POOL[idx % len]`, record it and
advance the cursor. -/
def get_color_for_name (st : ColorState) (name : Option Txt) : RGB × ColorState :=
  match name with
  | none => (COLOR_WHITE, st)
  | some n =>
    if n = [] then (COLOR_WHITE, st)
    else
      match lookupName n NAME_FIXED_COLORS with
      | some c => (c, st)
      | none =>
        match lookupName n st.map with
        | some c => (c, st)
        | none =>
          let c := (AUTO_COLOR_POOL.get? (st.autoIdx % AUTO_COLOR_POOL.length)).getD COLOR_WHITE
          (c, ⟨st.map ++ [(n, c)], st.autoIdx + 1⟩)

/-- Run `get_color_for_name` over a sequence of names, keeping only the
state. -/
def runNames (st : ColorState) (l : List (Option Txt)) : ColorState :=
  l.foldl (fun s n => (get_color_for_name s n).2) st

/-- Run `get_color_for_name` over a sequence of names, collecting the
returned colors. -/
def colorTrace (st : ColorState) : List (Option Txt) → List RGB
  | [] => []
  | n :: rest =>
    let p := get_color_for_name st n
    p.1 :: colorTrace p.2 rest

/-- One text run of a slide: display text (marker followed by the fragment
text when the speaker name is set and non-empty, Python's
`f"《{name}》" if name else ""`) plus the resolved color. -/
def fragmentRun (st : ColorState) (frag : Seg) : (Txt × RGB) × ColorState :=
  let p := get_color_for_name st frag.1
  let markerTxt : Txt :=
    match frag.1 with
    | some n => if n = [] then [] else '《' :: (n ++ ['》'])
    | none => []
  ((markerTxt ++ frag.2, p.1), p.2)

/-- A slide descriptor: its text runs and the optional `index/total` page
indicator (`add_page_indicator` draws nothing when `total <= 1`). -/
structure Slide where
  runs : List (Txt × RGB)
  page : Option (Nat × Nat)
deriving DecidableEq

/-- The `for name, part in chunk` run loop of `create_script_slides`. -/
def buildRuns (st : ColorState) : Chunk → List (Txt × RGB) × ColorState
  | [] => ([], st)
  | f :: fs =>
    let p := fragmentRun st f
    let q := buildRuns p.2 fs
    (p.1 :: q.1, q.2)

/-- Build the slide of one chunk: its runs, and the page indicator exactly
when `total > 1` (the early return of `add_page_indicator`). -/
def slideForChunk (st : ColorState) (idx total : Nat) (chunk : Chunk) : Slide × ColorState :=
  let p := buildRuns st chunk
  ({ runs := p.1, page := if total ≤ 1 then none else some (idx, total) }, p.2)

/-- The `for idx, chunk in enumerate(chunks, start=1)` loop. -/
def slidesGo (total : Nat) (st : ColorState) (idx : Nat) : List Chunk → List Slide × ColorState
  | [] => ([], st)
  | c :: cs =>
    let p := slideForChunk st idx total c
    let q := slidesGo total p.2 (idx + 1) cs
    (p.1 :: q.1, q.2)

/-- All slides of one note: parse, pack with `MAX_CHARS_PER_SLIDE`, then
emit one slide per chunk with 1-based indices against the chunk count. -/
def slidesForNote (st : ColorState) (note : Txt) : Option (List Slide × ColorState) :=
  (pack_segments_into_chunks (parse_notes_into_segments note) MAX_CHARS_PER_SLIDE).map
    (fun chunks => slidesGo chunks.length st 1 chunks)

/-- `create_script_slides`: one group of slides per note, in note order,
with the color state (the module globals) threaded through and returned. -/
def create_script_slides (st : ColorState) : List Txt → Option (List Slide × ColorState)
  | [] => some ([], st)
  | n :: ns =>
    match slidesForNote st n with
    | none => none
    | some (sls, st') =>
      (create_script_slides st' ns).map (fun p => (sls ++ p.1, p.2))

/-- Color-state left behind by one conversion request (identity when the
conversion fails, which never happens at the real budget). -/
def stateAfterRequest (st : ColorState) (notes : List Txt) : ColorState :=
  match create_script_slides st notes with
  | some p => p.2
  | none => st

/-- Color of the first text run of the first slide of a conversion. -/
def firstRunColor (st : ColorState) (notes : List Txt) : Option RGB :=
  match create_script_slides st notes with
  | some (sl :: _, _) =>
    match sl.runs with
    | run1 :: _ => some run1.2
    | [] => none
  | _ => none

/-- Sum of the fragment text lengths of a chunk. -/
def sumLen (c : Chunk) : Nat := (c.map (fun f => f.2.length)).sum

/-- Concatenation of the fragment texts of one chunk, in order. -/
def chunkText (c : Chunk) : Txt := (c.map (fun f => f.2)).flatten

/-- Concatenation of all fragment texts of a chunk list, in order. -/
def fragsConcat (chunks : List Chunk) : Txt := (chunks.map chunkText).flatten

/-- Concatenation of the segment texts produced by the segmenter. -/
def segsConcat (segs : List Seg) : Txt := (segs.map (fun s => s.2)).flatten

/-- Cut position described by the specification: one past the last boundary
character of the window, i.e. the end of the last run of boundary characters
(such a run is always followed by non-boundary characters only, and it is
the last run with that property). -/
def lastBoundaryEnd : Txt → Option Nat
  | [] => none
  | c :: cs =>
    match lastBoundaryEnd cs with
    | some j => some (j + 1)
    | none => if isBoundary c then some 1 else none

/-- Window cut per the specification's words: after the last run of boundary
characters when one exists, else at the full window. -/
def specCutLen (w : Txt) : Nat :=
  match lastBoundaryEnd w with
  | some e => e
  | none => w.length

/-- The window loop of the splitter with the specification's cut rule. -/
def specSplitGo (limit : Nat) : Nat → Txt → Option (List Txt)
  | _, [] => some []
  | 0, _ :: _ => none
  | fuel + 1, c :: cs =>
    let r := c :: cs
    let cl := specCutLen (r.take limit)
    (specSplitGo limit fuel (r.drop cl)).map (fun ps => r.take cl :: ps)

/-- The splitter as described by the specification: greedy windows of up to
`limit` characters, each cut after its last boundary run, hard cut when the
window has no boundary character. -/
def spec_split_preserving_words (s : Txt) (limit : Nat) : Option (List Txt) :=
  if s.length ≤ limit then some [s] else specSplitGo limit s.length s

/-!  Whitespace-stripping lemmas. -/

/-- A text with no leading and no trailing Python whitespace. -/
def noEdgeSpace (t : Txt) : Prop :=
  (∀ c, t.head? = some c → isPySpace c = false) ∧
  (∀ c, t.getLast? = some c → isPySpace c = false)

theorem dropWhile_head_not (p : Char → Bool) :
    ∀ (l : Txt) (c : Char), (l.dropWhile p).head? = some c → p c = false := by
  intro l
  induction l with
  | nil => intro c h; simp [List.dropWhile] at h
  | cons a l ih =>
    intro c h
    by_cases hp : p a
    · rw [List.dropWhile_cons_of_pos hp] at h
      exact ih c h
    · rw [List.dropWhile_cons_of_neg hp] at h
      simp at h
      subst h
      simpa using hp

theorem getLast?_cons_ne {α : Type} (a : α) (l : List α) (h : l ≠ []) :
    (a :: l).getLast? = l.getLast? := by
  cases l with
  | nil => exact absurd rfl h
  | cons b l => simp [List.getLast?_cons_cons]

theorem dropWhile_getLast? (p : Char → Bool) :
    ∀ (l : Txt), l.dropWhile p ≠ [] → (l.dropWhile p).getLast? = l.getLast? := by
  intro l
  induction l with
  | nil => intro h; simp [List.dropWhile] at h
  | cons a l ih =>
    intro h
    by_cases hp : p a
    · rw [List.dropWhile_cons_of_pos hp] at h ⊢
      have hl : l ≠ [] := by
        intro he; subst he; simp [List.dropWhile] at h
      rw [ih h, getLast?_cons_ne a l hl]
    · rw [List.dropWhile_cons_of_neg hp]

theorem dropWhile_eq_self_of_head (p : Char → Bool) (l : Txt)
    (h : ∀ c, l.head? = some c → p c = false) : l.dropWhile p = l := by
  cases l with
  | nil => rfl
  | cons a l =>
    have := h a (by simp)
    simp [List.dropWhile, this]

theorem stripTxt_eq_self (t : Txt) (h : noEdgeSpace t) : stripTxt t = t := by
  unfold stripTxt
  rw [dropWhile_eq_self_of_head isPySpace t h.1]
  rw [dropWhile_eq_self_of_head isPySpace t.reverse (by
    intro c hc
    rw [List.head?_reverse] at hc
    exact h.2 c hc)]
  exact List.reverse_reverse t

theorem noEdgeSpace_strip (t : Txt) : noEdgeSpace (stripTxt t) := by
  unfold stripTxt
  constructor
  · intro c hc
    generalize hv : (t.dropWhile isPySpace).reverse.dropWhile isPySpace = v at hc
    cases hve : v with
    | nil => subst hve; simp at hc
    | cons a vs =>
      subst hve
      rw [List.head?_reverse] at hc
      have hne : (t.dropWhile isPySpace).reverse.dropWhile isPySpace ≠ [] := by
        rw [hv]; simp
      have := dropWhile_getLast? isPySpace (t.dropWhile isPySpace).reverse hne
      rw [hv] at this
      rw [this] at hc
      rw [List.getLast?_reverse] at hc
      exact dropWhile_head_not isPySpace t c hc
  · intro c hc
    rw [List.getLast?_reverse] at hc
    exact dropWhile_head_not isPySpace _ c hc

theorem head?_append_left {α : Type} (l₁ l₂ : List α) (h : l₁ ≠ []) :
    (l₁ ++ l₂).head? = l₁.head? := by
  cases l₁ with
  | nil => exact absurd rfl h
  | cons a l => simp

theorem getLast?_append_right {α : Type} (l₁ l₂ : List α) (h : l₂ ≠ []) :
    (l₁ ++ l₂).getLast? = l₂.getLast? := by
  induction l₁ with
  | nil => simp
  | cons a l ih =>
    have : l ++ l₂ ≠ [] := by
      intro he
      rcases List.append_eq_nil.1 he with ⟨_, h2⟩
      exact h h2
    rw [List.cons_append, getLast?_cons_ne a (l ++ l₂) this, ih]

theorem noEdgeSpace_append (a b : Txt) (ha : noEdgeSpace a) (hb : noEdgeSpace b)
    (hane : a ≠ []) (hbne : b ≠ []) : noEdgeSpace (a ++ b) := by
  constructor
  · intro c hc
    rw [head?_append_left a b hane] at hc
    exact ha.1 c hc
  · intro c hc
    rw [getLast?_append_right a b hbne] at hc
    exact hb.2 c hc

theorem stripTxt_nil : stripTxt [] = [] := rfl

theorem dropWhile_length_le (p : Char → Bool) :
    ∀ (l : Txt), (l.dropWhile p).length ≤ l.length := by
  intro l
  induction l with
  | nil => simp [List.dropWhile]
  | cons a l ih =>
    by_cases hp : p a
    · rw [List.dropWhile_cons_of_pos hp]
      exact Nat.le_succ_of_le ih
    · rw [List.dropWhile_cons_of_neg hp]

theorem stripTxt_length_le (t : Txt) : (stripTxt t).length ≤ t.length := by
  unfold stripTxt
  calc ((t.dropWhile isPySpace).reverse.dropWhile isPySpace).reverse.length
      = ((t.dropWhile isPySpace).reverse.dropWhile isPySpace).length := by
        rw [List.length_reverse]
    _ ≤ (t.dropWhile isPySpace).reverse.length := dropWhile_length_le _ _
    _ = (t.dropWhile isPySpace).length := by rw [List.length_reverse]
    _ ≤ t.length := dropWhile_length_le _ _

/-!  Segmenter invariants. -/

/-- A well-formed segment: non-empty text with no edge whitespace. -/
def goodSeg (s : Seg) : Prop := s.2 ≠ [] ∧ noEdgeSpace s.2

theorem emitSeg_good (segs : List Seg) (name : Option Txt) (buf : Txt)
    (h : ∀ s ∈ segs, goodSeg s) : ∀ s ∈ emitSeg segs name buf, goodSeg s := by
  intro s hs
  unfold emitSeg at hs
  by_cases hj : stripTxt buf = []
  · simp only [hj, if_pos rfl] at hs
    exact h s hs
  · simp only [if_neg hj] at hs
    rcases List.mem_append.1 hs with hs | hs
    · exact h s hs
    · simp at hs
      subst hs
      exact ⟨hj, noEdgeSpace_strip buf⟩

theorem parseGo_good :
    ∀ (lines : List Txt) (segs : List Seg) (name : Option Txt) (buf : Txt),
      (∀ s ∈ segs, goodSeg s) → ∀ s ∈ parseGo lines segs name buf, goodSeg s := by
  intro lines
  induction lines with
  | nil =>
    intro segs name buf h
    exact emitSeg_good segs name buf h
  | cons line rest ih =>
    intro segs name buf h s hs
    unfold parseGo at hs
    cases hm : matchMarker line with
    | some p =>
      rw [hm] at hs
      exact ih (emitSeg segs name buf) (some p.1) p.2 (emitSeg_good segs name buf h) s hs
    | none =>
      rw [hm] at hs
      exact ih segs name (buf ++ line) h s hs

theorem eq_dropLast_append_getLast {α : Type} :
    ∀ (l : List α) (a : α), l.getLast? = some a → l = l.dropLast ++ [a] := by
  intro l
  induction l with
  | nil => intro a h; simp at h
  | cons b l ih =>
    intro a h
    cases l with
    | nil => simp at h; subst h; rfl
    | cons c l =>
      rw [List.getLast?_cons_cons] at h
      have := ih a h
      calc b :: c :: l = b :: ((c :: l).dropLast ++ [a]) := by rw [← this]
        _ = (b :: c :: l).dropLast ++ [a] := by simp [List.dropLast_cons₂]

theorem mergeStep_good (acc : List Seg) (s : Seg)
    (hacc : ∀ x ∈ acc, goodSeg x) (hs : goodSeg s) :
    ∀ x ∈ mergeStep acc s, goodSeg x := by
  intro x hx
  unfold mergeStep at hx
  cases hl : acc.getLast? with
  | none =>
    rw [hl] at hx
    simp at hx
    subst hx
    exact hs
  | some l =>
    rw [hl] at hx
    have hlacc : l ∈ acc := by
      rw [eq_dropLast_append_getLast acc l hl]
      exact List.mem_append.2 (Or.inr (by simp))
    by_cases he : l.1 = s.1
    · simp only [if_pos he] at hx
      rcases List.mem_append.1 hx with hx | hx
      · refine hacc x ?_
        rw [eq_dropLast_append_getLast acc l hl]
        exact List.mem_append.2 (Or.inl hx)
      · simp at hx
        subst hx
        have hg := hacc l hlacc
        have hgs := hs
        refine ⟨?_, ?_⟩
        · intro hcontr
          rcases List.append_eq_nil.1 hcontr with ⟨h1, _⟩
          exact hg.1 h1
        · exact noEdgeSpace_append l.2 s.2 hg.2 hgs.2 hg.1 hgs.1
    · simp only [if_neg he] at hx
      rcases List.mem_append.1 hx with hx | hx
      · exact hacc x hx
      · simp at hx
        subst hx
        exact hs

theorem mergeFold_good :
    ∀ (l acc : List Seg), (∀ s ∈ l, goodSeg s) → (∀ s ∈ acc, goodSeg s) →
      ∀ s ∈ l.foldl mergeStep acc, goodSeg s := by
  intro l
  induction l with
  | nil => intro acc _ hacc; simpa using hacc
  | cons a l ih =>
    intro acc hl hacc
    rw [List.foldl_cons]
    refine ih (mergeStep acc a) (fun s hs => hl s (by simp [hs])) ?_
    exact mergeStep_good acc a hacc (hl a (by simp))

theorem chain_snoc_replace (xs : List Seg) (a b : Seg) (hab : a.1 = b.1)
    (h : List.Chain' (fun x y => x.1 ≠ y.1) (xs ++ [a])) :
    List.Chain' (fun x y => x.1 ≠ y.1) (xs ++ [b]) := by
  rw [List.chain'_append] at h ⊢
  refine ⟨h.1, List.chain'_singleton b, ?_⟩
  intro x hx y hy
  simp at hy
  subst hy
  have := h.2.2 x hx a (by simp)
  rw [← hab]
  exact this

theorem mergeStep_chain (acc : List Seg) (s : Seg)
    (h : List.Chain' (fun x y => x.1 ≠ y.1) acc) :
    List.Chain' (fun x y => x.1 ≠ y.1) (mergeStep acc s) := by
  unfold mergeStep
  cases hl : acc.getLast? with
  | none => exact List.chain'_singleton s
  | some l =>
    by_cases he : l.1 = s.1
    · simp only [if_pos he]
      have hacc := eq_dropLast_append_getLast acc l hl
      rw [hacc] at h
      exact chain_snoc_replace acc.dropLast l (l.1, l.2 ++ s.2) rfl h
    · simp only [if_neg he]
      rw [List.chain'_append]
      refine ⟨h, List.chain'_singleton s, ?_⟩
      intro x hx y hy
      simp at hy
      subst hy
      rw [hl] at hx
      simp at hx
      subst hx
      exact he

theorem mergeFold_chain :
    ∀ (l acc : List Seg), List.Chain' (fun x y => x.1 ≠ y.1) acc →
      List.Chain' (fun x y => x.1 ≠ y.1) (l.foldl mergeStep acc) := by
  intro l
  induction l with
  | nil => intro acc h; simpa using h
  | cons a l ih =>
    intro acc h
    rw [List.foldl_cons]
    exact ih (mergeStep acc a) (mergeStep_chain acc a h)

theorem parse_good (note : Txt) : ∀ s ∈ parse_notes_into_segments note, goodSeg s := by
  unfold parse_notes_into_segments mergeAdjacent
  intro s hs
  refine mergeFold_good _ [] ?_ (by simp) s hs
  exact parseGo_good _ [] none [] (by simp)

theorem parse_chain (note : Txt) :
    List.Chain' (fun x y => x.1 ≠ y.1) (parse_notes_into_segments note) := by
  unfold parse_notes_into_segments mergeAdjacent
  exact mergeFold_chain _ [] List.chain'_nil

/-!  Splitter lemmas. -/

theorem boundaryPrefixLen_le : ∀ (w : Txt), boundaryPrefixLen w ≤ w.length := by
  intro w
  induction w with
  | nil => simp [boundaryPrefixLen]
  | cons c cs ih =>
    unfold boundaryPrefixLen
    by_cases hb : isBoundary c
    · simp only [if_pos hb, List.length_cons]
      omega
    · simp only [if_neg hb]
      omega

theorem matchAt_pos (w : Txt) (k : Nat) (h : matchAt w = some k) : 1 ≤ k := by
  unfold matchAt at h
  by_cases h0 : boundaryPrefixLen w = 0
  · simp [h0] at h
  · simp only [if_neg h0] at h
    by_cases hla : lookaheadOk (w.drop (boundaryPrefixLen w))
    · simp only [if_pos hla] at h
      simp at h
      omega
    · simp [hla] at h

theorem matchAt_le (w : Txt) (k : Nat) (h : matchAt w = some k) : k ≤ w.length := by
  unfold matchAt at h
  by_cases h0 : boundaryPrefixLen w = 0
  · simp [h0] at h
  · simp only [if_neg h0] at h
    by_cases hla : lookaheadOk (w.drop (boundaryPrefixLen w))
    · simp only [if_pos hla] at h
      simp at h
      subst h
      exact boundaryPrefixLen_le w
    · simp [hla] at h

theorem reSearchEnd_pos : ∀ (w : Txt) (e : Nat), reSearchEnd w = some e → 1 ≤ e := by
  intro w
  induction w with
  | nil => intro e h; simp [reSearchEnd] at h
  | cons c cs ih =>
    intro e h
    unfold reSearchEnd at h
    cases hm : matchAt (c :: cs) with
    | some k =>
      rw [hm] at h
      simp at h
      subst h
      exact matchAt_pos _ k hm
    | none =>
      rw [hm] at h
      rcases Option.map_eq_some'.1 h with ⟨e', _, he⟩
      omega

theorem reSearchEnd_le : ∀ (w : Txt) (e : Nat), reSearchEnd w = some e → e ≤ w.length := by
  intro w
  induction w with
  | nil => intro e h; simp [reSearchEnd] at h
  | cons c cs ih =>
    intro e h
    unfold reSearchEnd at h
    cases hm : matchAt (c :: cs) with
    | some k =>
      rw [hm] at h
      simp at h
      subst h
      exact matchAt_le _ k hm
    | none =>
      rw [hm] at h
      rcases Option.map_eq_some'.1 h with ⟨e', he', he⟩
      have hle := ih e' he'
      subst he
      simp only [List.length_cons]
      omega

theorem cutLen_le (w : Txt) : cutLen w ≤ w.length := by
  unfold cutLen
  cases h : reSearchEnd w with
  | some e => exact reSearchEnd_le w e h
  | none => exact Nat.le_refl _

theorem cutLen_pos (w : Txt) (h : w ≠ []) : 1 ≤ cutLen w := by
  unfold cutLen
  cases hr : reSearchEnd w with
  | some e => exact reSearchEnd_pos w e hr
  | none =>
    cases w with
    | nil => exact absurd rfl h
    | cons c cs => simp

theorem take_cons_ne_nil (c : Char) (cs : Txt) (limit : Nat) (hl : 1 ≤ limit) :
    (c :: cs).take limit ≠ [] := by
  obtain ⟨n, rfl⟩ : ∃ n, limit = n + 1 := ⟨limit - 1, by omega⟩
  rw [List.take_succ_cons]
  simp

theorem splitGo_isSome (limit : Nat) (hl : 1 ≤ limit) :
    ∀ (fuel : Nat) (r : Txt), r.length ≤ fuel → (splitGo limit fuel r).isSome := by
  intro fuel
  induction fuel with
  | zero =>
    intro r hr
    cases r with
    | nil => simp [splitGo]
    | cons c cs => simp at hr
  | succ fuel ih =>
    intro r hr
    cases r with
    | nil => simp [splitGo]
    | cons c cs =>
      have hcl : 1 ≤ cutLen ((c :: cs).take limit) :=
        cutLen_pos _ (take_cons_ne_nil c cs limit hl)
      have hdrop : ((c :: cs).drop (cutLen ((c :: cs).take limit))).length ≤ fuel := by
        rw [List.length_drop]
        simp only [List.length_cons] at hr ⊢
        omega
      have hrec := ih _ hdrop
      simp only [splitGo]
      cases hs : splitGo limit fuel ((c :: cs).drop (cutLen ((c :: cs).take limit))) with
      | none => rw [hs] at hrec; simp at hrec
      | some ps => simp

theorem splitGo_flatten (limit : Nat) :
    ∀ (fuel : Nat) (r : Txt) (ps : List Txt), splitGo limit fuel r = some ps →
      ps.flatten = r := by
  intro fuel
  induction fuel with
  | zero =>
    intro r ps h
    cases r with
    | nil => simp [splitGo] at h; subst h; rfl
    | cons c cs => simp [splitGo] at h
  | succ fuel ih =>
    intro r ps h
    cases r with
    | nil => simp [splitGo] at h; subst h; rfl
    | cons c cs =>
      simp only [splitGo] at h
      rcases Option.map_eq_some'.1 h with ⟨ps', hps', hps⟩
      subst hps
      rw [List.flatten_cons, ih _ ps' hps']
      exact List.take_append_drop _ _

theorem splitGo_piece_le (limit : Nat) :
    ∀ (fuel : Nat) (r : Txt) (ps : List Txt), splitGo limit fuel r = some ps →
      ∀ p ∈ ps, p.length ≤ limit := by
  intro fuel
  induction fuel with
  | zero =>
    intro r ps h
    cases r with
    | nil => simp [splitGo] at h; subst h; simp
    | cons c cs => simp [splitGo] at h
  | succ fuel ih =>
    intro r ps h
    cases r with
    | nil => simp [splitGo] at h; subst h; simp
    | cons c cs =>
      simp only [splitGo] at h
      rcases Option.map_eq_some'.1 h with ⟨ps', hps', hps⟩
      subst hps
      intro p hp
      rcases List.mem_cons.1 hp with hp | hp
      · subst hp
        rw [List.length_take]
        have h1 : cutLen ((c :: cs).take limit) ≤ ((c :: cs).take limit).length :=
          cutLen_le _
        rw [List.length_take] at h1
        omega
      · exact ih _ ps' hps' p hp

theorem split_preserving_words_isSome (s : Txt) (limit : Nat) (hl : 1 ≤ limit) :
    (split_preserving_words s limit).isSome := by
  unfold split_preserving_words
  by_cases h : s.length ≤ limit
  · simp [h]
  · simp only [if_neg h]
    exact splitGo_isSome limit hl s.length s (Nat.le_refl _)

theorem split_flatten (s : Txt) (limit : Nat) (ps : List Txt)
    (h : split_preserving_words s limit = some ps) : ps.flatten = s := by
  unfold split_preserving_words at h
  by_cases hle : s.length ≤ limit
  · simp [hle] at h
    subst h
    simp
  · simp only [if_neg hle] at h
    exact splitGo_flatten limit s.length s ps h

theorem split_piece_le (s : Txt) (limit : Nat) (ps : List Txt)
    (h : split_preserving_words s limit = some ps) (hl : s.length ≤ limit ∨ 1 ≤ limit) :
    ∀ p ∈ ps, p.length ≤ limit := by
  unfold split_preserving_words at h
  by_cases hle : s.length ≤ limit
  · simp [hle] at h
    subst h
    intro p hp
    simp at hp
    subst hp
    exact hle
  · simp only [if_neg hle] at h
    exact splitGo_piece_le limit s.length s ps h

/-!  Equivalence of the regex search with the last-boundary-run cut, on
newline-free text. -/

theorem lastBoundaryEnd_none :
    ∀ (w : Txt), lastBoundaryEnd w = none → ∀ c ∈ w, isBoundary c = false := by
  intro w
  induction w with
  | nil => intro _ c hc; simp at hc
  | cons a w ih =>
    intro h c hc
    unfold lastBoundaryEnd at h
    cases hw : lastBoundaryEnd w with
    | some j => rw [hw] at h; simp at h
    | none =>
      rw [hw] at h
      by_cases hb : isBoundary a
      · simp [hb] at h
      · rcases List.mem_cons.1 hc with hc | hc
        · subst hc; simpa using hb
        · exact ih hw c hc

theorem lastBoundaryEnd_none_of_all :
    ∀ (w : Txt), (∀ c ∈ w, isBoundary c = false) → lastBoundaryEnd w = none := by
  intro w
  induction w with
  | nil => intro _; rfl
  | cons a w ih =>
    intro h
    unfold lastBoundaryEnd
    rw [ih (fun c hc => h c (by simp [hc]))]
    have := h a (by simp)
    simp [this]

theorem lastBoundaryEnd_append_nonB :
    ∀ (xs ys : Txt), (∀ c ∈ ys, isBoundary c = false) →
      lastBoundaryEnd (xs ++ ys) = lastBoundaryEnd xs := by
  intro xs ys hys
  induction xs with
  | nil =>
    simp only [List.nil_append]
    exact lastBoundaryEnd_none_of_all ys hys
  | cons a xs ih =>
    rw [List.cons_append]
    unfold lastBoundaryEnd
    rw [ih]

theorem lastBoundaryEnd_run :
    ∀ (xs : Txt), (∀ c ∈ xs, isBoundary c = true) → xs ≠ [] →
      lastBoundaryEnd xs = some xs.length := by
  intro xs
  induction xs with
  | nil => intro _ h; exact absurd rfl h
  | cons a xs ih =>
    intro h _
    unfold lastBoundaryEnd
    cases hxs : xs with
    | nil =>
      simp only [hxs, lastBoundaryEnd]
      have := h a (by simp)
      simp [this]
    | cons b ys =>
      rw [← hxs, ih (fun c hc => h c (by simp [hc])) (by simp [hxs])]
      simp

theorem take_boundaryPrefix_all :
    ∀ (w : Txt), ∀ c ∈ w.take (boundaryPrefixLen w), isBoundary c = true := by
  intro w
  induction w with
  | nil => intro c hc; simp [boundaryPrefixLen] at hc
  | cons a w ih =>
    intro c hc
    unfold boundaryPrefixLen at hc
    by_cases hb : isBoundary a
    · rw [if_pos hb, List.take_succ_cons] at hc
      rcases List.mem_cons.1 hc with hc | hc
      · subst hc; exact hb
      · exact ih c hc
    · rw [if_neg hb] at hc
      simp at hc

theorem boundaryPrefixLen_cons_pos (c : Char) (cs : Txt) (h : isBoundary c = true) :
    boundaryPrefixLen (c :: cs) = boundaryPrefixLen cs + 1 := by
  show (if isBoundary c = true then boundaryPrefixLen cs + 1 else 0) = boundaryPrefixLen cs + 1
  rw [if_pos h]

theorem mem_of_getLast?_eq {α : Type} (l : List α) (a : α) (h : l.getLast? = some a) :
    a ∈ l := by
  rw [eq_dropLast_append_getLast l a h]
  exact List.mem_append.2 (Or.inr (by simp))

theorem reSearchEnd_cons (c : Char) (cs : Txt) :
    reSearchEnd (c :: cs) =
      match matchAt (c :: cs) with
      | some k => some k
      | none => (reSearchEnd cs).map (· + 1) := rfl

theorem reSearchEnd_eq_lastBoundaryEnd :
    ∀ (w : Txt), (∀ c ∈ w, c ≠ '\n') → reSearchEnd w = lastBoundaryEnd w := by
  intro w
  induction w with
  | nil => intro _; rfl
  | cons c cs ih =>
    intro hnl
    have ihcs := ih (fun x hx => hnl x (by simp [hx]))
    by_cases hb : isBoundary c
    · -- the head starts a boundary run
      have hk : boundaryPrefixLen (c :: cs) = boundaryPrefixLen cs + 1 :=
        boundaryPrefixLen_cons_pos c cs hb
      by_cases hla : lookaheadOk ((c :: cs).drop (boundaryPrefixLen (c :: cs)))
      · -- the maximal run matches: everything after it is non-boundary
        have hmatch : matchAt (c :: cs) = some (boundaryPrefixLen (c :: cs)) := by
          unfold matchAt
          rw [if_neg (by omega), if_pos hla]
        have hre : reSearchEnd (c :: cs) = some (boundaryPrefixLen (c :: cs)) := by
          rw [reSearchEnd_cons, hmatch]
        -- the lookahead region cannot end in a newline, so it is all non-boundary
        have hrest : ∀ x ∈ (c :: cs).drop (boundaryPrefixLen (c :: cs)), isBoundary x = false := by
          unfold lookaheadOk at hla
          rcases Bool.or_eq_true_iff.1 hla with hall | hnlcase
          · intro x hx
            have := List.all_eq_true.1 hall x hx
            simpa using this
          · exfalso
            have hg : ((c :: cs).drop (boundaryPrefixLen (c :: cs))).getLast? = some '\n' := by
              have := Bool.and_eq_true_iff.1 hnlcase
              exact of_decide_eq_true this.1
            have : ('\n' : Char) ∈ (c :: cs) :=
              List.drop_subset _ _ (mem_of_getLast?_eq _ _ hg)
            exact hnl '\n' this rfl
        have hsplit := List.take_append_drop (boundaryPrefixLen (c :: cs)) (c :: cs)
        calc reSearchEnd (c :: cs) = some (boundaryPrefixLen (c :: cs)) := hre
          _ = lastBoundaryEnd (c :: cs) := by
            conv_rhs => rw [← hsplit]
            rw [lastBoundaryEnd_append_nonB _ _ hrest]
            rw [lastBoundaryEnd_run _ (take_boundaryPrefix_all (c :: cs))
              (take_cons_ne_nil c cs _ (by omega))]
            rw [List.length_take]
            have hlen := boundaryPrefixLen_le (c :: cs)
            congr 1
            omega
      · -- the lookahead fails: a later boundary run exists
        have hmatch : matchAt (c :: cs) = none := by
          unfold matchAt
          rw [if_neg (by omega), if_neg hla]
        have hre : reSearchEnd (c :: cs) = (reSearchEnd cs).map (· + 1) := by
          rw [reSearchEnd_cons, hmatch]
        have hcs : lastBoundaryEnd cs ≠ none := by
          intro hnone
          have hall := lastBoundaryEnd_none cs hnone
          apply absurd hla
          simp only [not_not]
          unfold lookaheadOk
          apply Bool.or_eq_true_iff.2
          left
          apply List.all_eq_true.2
          intro x hx
          have : x ∈ cs := by
            rw [hk, List.drop_succ_cons] at hx
            exact List.drop_subset _ _ hx
          simp [hall x this]
        cases hj : lastBoundaryEnd cs with
        | none => exact absurd hj hcs
        | some j =>
          rw [hre, ihcs, hj]
          unfold lastBoundaryEnd
          rw [hj]
          rfl
    · -- non-boundary head: both sides step into the tail
      have hmatch : matchAt (c :: cs) = none := by
        unfold matchAt
        unfold boundaryPrefixLen
        rw [if_neg hb]
        simp
      have hre : reSearchEnd (c :: cs) = (reSearchEnd cs).map (· + 1) := by
        rw [reSearchEnd_cons, hmatch]
      rw [hre, ihcs]
      cases hj : lastBoundaryEnd cs with
      | none =>
        unfold lastBoundaryEnd
        rw [hj, if_neg (by simpa using hb)]
        rfl
      | some j =>
        unfold lastBoundaryEnd
        rw [hj]
        rfl

theorem cutLen_eq_specCutLen (w : Txt) (h : ∀ c ∈ w, c ≠ '\n') :
    cutLen w = specCutLen w := by
  unfold cutLen specCutLen
  rw [reSearchEnd_eq_lastBoundaryEnd w h]

theorem splitGo_eq_specSplitGo (limit : Nat) :
    ∀ (fuel : Nat) (r : Txt), (∀ c ∈ r, c ≠ '\n') →
      splitGo limit fuel r = specSplitGo limit fuel r := by
  intro fuel
  induction fuel with
  | zero =>
    intro r _
    cases r with
    | nil => rfl
    | cons c cs => rfl
  | succ fuel ih =>
    intro r hnl
    cases r with
    | nil => rfl
    | cons c cs =>
      simp only [splitGo, specSplitGo]
      rw [cutLen_eq_specCutLen ((c :: cs).take limit)
        (fun x hx => hnl x (List.take_subset _ _ hx))]
      rw [ih ((c :: cs).drop (specCutLen ((c :: cs).take limit)))
        (fun x hx => hnl x (List.drop_subset _ _ hx))]

theorem split_eq_spec_split (s : Txt) (limit : Nat) (h : ∀ c ∈ s, c ≠ '\n') :
    split_preserving_words s limit = spec_split_preserving_words s limit := by
  unfold split_preserving_words spec_split_preserving_words
  by_cases hle : s.length ≤ limit
  · simp [hle]
  · simp only [if_neg hle]
    exact splitGo_eq_specSplitGo limit s.length s h

/-!  Packing invariants. -/

/-- Loop invariant of the packer: the running total equals the length sum of
the current chunk, the current chunk fits the budget, and every closed chunk
fits the budget. -/
def PackInvariant (limit : Nat) (st : PackSt) : Prop :=
  st.curLen = sumLen st.cur ∧ st.curLen ≤ limit ∧ ∀ c ∈ st.chunks, sumLen c ≤ limit

theorem sumLen_nil : sumLen [] = 0 := rfl

theorem sumLen_append (c1 c2 : Chunk) : sumLen (c1 ++ c2) = sumLen c1 + sumLen c2 := by
  unfold sumLen
  rw [List.map_append, List.sum_append]

theorem flushSt_invariant (limit : Nat) (st : PackSt) (h : PackInvariant limit st) :
    PackInvariant limit (flushSt st) := by
  unfold flushSt
  by_cases hc : st.cur.isEmpty
  · rw [if_pos hc]; exact h
  · rw [if_neg hc]
    refine ⟨rfl, Nat.zero_le _, ?_⟩
    intro c hc'
    rcases List.mem_append.1 hc' with hc' | hc'
    · exact h.2.2 c hc'
    · simp at hc'
      subst hc'
      rw [← h.1]
      exact h.2.1

theorem flushSt_curLen (limit : Nat) (st : PackSt) (h : PackInvariant limit st) :
    (flushSt st).curLen = 0 := by
  unfold flushSt
  by_cases hc : st.cur.isEmpty
  · rw [if_pos hc]
    rw [h.1, List.isEmpty_iff.1 hc]
    rfl
  · rw [if_neg hc]

theorem flushSt_cur (st : PackSt) : (flushSt st).cur = [] := by
  unfold flushSt
  by_cases hc : st.cur.isEmpty
  · rw [if_pos hc]
    exact List.isEmpty_iff.1 hc
  · rw [if_neg hc]

theorem packAppend_invariant (limit : Nat) (name : Option Txt) (piece : Txt) (st1 : PackSt)
    (h : PackInvariant limit st1) (hfit : st1.curLen + piece.length ≤ limit) :
    PackInvariant limit (packAppend limit name piece st1) := by
  have h2 : PackInvariant limit
      (⟨st1.chunks, st1.cur ++ [(name, piece)], st1.curLen + piece.length⟩ : PackSt) := by
    refine ⟨?_, hfit, h.2.2⟩
    show st1.curLen + piece.length = sumLen (st1.cur ++ [(name, piece)])
    rw [sumLen_append, ← h.1]
    rfl
  unfold packAppend
  dsimp only
  by_cases hge : limit ≤ st1.curLen + piece.length
  · rw [if_pos hge]
    exact flushSt_invariant limit _ h2
  · rw [if_neg hge]
    exact h2

theorem packPiece_invariant (limit : Nat) (name : Option Txt) (st : PackSt) (p : Txt)
    (h : PackInvariant limit st) (hp : (stripTxt p).length ≤ limit) :
    PackInvariant limit (packPiece limit name st p) := by
  unfold packPiece
  dsimp only
  by_cases hpe : stripTxt p = []
  · rw [if_pos hpe]
    exact h
  · rw [if_neg hpe]
    by_cases hcond : limit - st.curLen < (stripTxt p).length ∧ ¬ st.cur.isEmpty
    · rw [if_pos hcond]
      refine packAppend_invariant limit name _ _ (flushSt_invariant limit st h) ?_
      rw [flushSt_curLen limit st h]
      simpa using hp
    · rw [if_neg hcond]
      refine packAppend_invariant limit name _ _ h ?_
      rcases Decidable.not_and_iff_or_not.1 hcond with h1 | h1
      · have := h.2.1
        omega
      · have hcur : st.cur = [] := List.isEmpty_iff.1 (Decidable.not_not.1 h1)
        have : st.curLen = 0 := by rw [h.1, hcur]; rfl
        omega

theorem packPieces_invariant (limit : Nat) (name : Option Txt) :
    ∀ (pieces : List Txt) (st : PackSt), PackInvariant limit st →
      (∀ p ∈ pieces, (stripTxt p).length ≤ limit) →
      PackInvariant limit (pieces.foldl (packPiece limit name) st) := by
  intro pieces
  induction pieces with
  | nil => intro st h _; simpa using h
  | cons p ps ih =>
    intro st h hps
    rw [List.foldl_cons]
    refine ih _ (packPiece_invariant limit name st p h (hps p (by simp))) ?_
    intro q hq
    exact hps q (by simp [hq])

theorem packSeg_invariant (limit : Nat) (st st' : PackSt) (seg : Seg)
    (hsome : packSeg limit st seg = some st') (h : PackInvariant limit st)
    (hl : 1 ≤ limit) : PackInvariant limit st' := by
  unfold packSeg at hsome
  rcases Option.map_eq_some'.1 hsome with ⟨pieces, hpieces, hst'⟩
  subst hst'
  refine packPieces_invariant limit seg.1 pieces st h ?_
  intro p hp
  calc (stripTxt p).length ≤ p.length := stripTxt_length_le p
    _ ≤ limit := split_piece_le seg.2 limit pieces hpieces (Or.inr hl) p hp

theorem packFold_invariant (limit : Nat) (hl : 1 ≤ limit) :
    ∀ (segs : List Seg) (st st' : PackSt),
      segs.foldlM (packSeg limit) st = some st' → PackInvariant limit st →
      PackInvariant limit st' := by
  intro segs
  induction segs with
  | nil =>
    intro st st' hfold h
    rw [List.foldlM_nil] at hfold
    have heq : st = st' := by simpa using hfold
    subst heq
    exact h
  | cons seg segs ih =>
    intro st st' hfold h
    rw [List.foldlM_cons] at hfold
    cases hseg : packSeg limit st seg with
    | none => rw [hseg] at hfold; simp at hfold
    | some st1 =>
      rw [hseg] at hfold
      exact ih st1 st' hfold (packSeg_invariant limit st st1 seg hseg h hl)

theorem pack_chunks_le (segs : List Seg) (limit : Nat) (chunks : List Chunk)
    (hl : 1 ≤ limit) (h : pack_segments_into_chunks segs limit = some chunks) :
    ∀ c ∈ chunks, sumLen c ≤ limit := by
  unfold pack_segments_into_chunks at h
  rcases Option.map_eq_some'.1 h with ⟨stF, hfold, hchunks⟩
  subst hchunks
  have hinv : PackInvariant limit stF :=
    packFold_invariant limit hl segs ⟨[], [], 0⟩ stF hfold ⟨rfl, Nat.zero_le _, by simp⟩
  exact (flushSt_invariant limit stF hinv).2.2

/-!  Round-trip of texts through the packer. -/

/-- All fragment text of a packer state, closed chunks first, then the
current chunk. -/
def stTexts (st : PackSt) : Txt := fragsConcat st.chunks ++ chunkText st.cur

theorem chunkText_append (c1 c2 : Chunk) :
    chunkText (c1 ++ c2) = chunkText c1 ++ chunkText c2 := by
  unfold chunkText
  rw [List.map_append, List.flatten_append]

theorem fragsConcat_append (l1 l2 : List Chunk) :
    fragsConcat (l1 ++ l2) = fragsConcat l1 ++ fragsConcat l2 := by
  unfold fragsConcat
  rw [List.map_append, List.flatten_append]

theorem chunkText_nil : chunkText [] = [] := rfl

theorem fragsConcat_single (c : Chunk) : fragsConcat [c] = chunkText c := by
  unfold fragsConcat
  simp

theorem stTexts_flush (st : PackSt) : stTexts (flushSt st) = stTexts st := by
  unfold flushSt
  by_cases hc : st.cur.isEmpty
  · rw [if_pos hc]
  · rw [if_neg hc]
    unfold stTexts
    simp only
    rw [fragsConcat_append, fragsConcat_single, chunkText_nil, List.append_nil]

theorem flush_chunks_texts (st : PackSt) : fragsConcat (flushSt st).chunks = stTexts st := by
  have h1 : stTexts (flushSt st) = stTexts st := stTexts_flush st
  unfold stTexts at h1
  rw [flushSt_cur st, chunkText_nil, List.append_nil] at h1
  exact h1

theorem stTexts_packAppend (limit : Nat) (name : Option Txt) (piece : Txt) (st1 : PackSt) :
    stTexts (packAppend limit name piece st1) = stTexts st1 ++ piece := by
  unfold packAppend
  dsimp only
  have h2 : stTexts (⟨st1.chunks, st1.cur ++ [(name, piece)],
      st1.curLen + piece.length⟩ : PackSt) = stTexts st1 ++ piece := by
    unfold stTexts
    simp only
    rw [chunkText_append]
    unfold chunkText
    simp
  by_cases hge : limit ≤ st1.curLen + piece.length
  · rw [if_pos hge, stTexts_flush, h2]
  · rw [if_neg hge, h2]

theorem stTexts_packPiece (limit : Nat) (name : Option Txt) (st : PackSt) (p : Txt) :
    stTexts (packPiece limit name st p) = stTexts st ++ stripTxt p := by
  unfold packPiece
  dsimp only
  by_cases hpe : stripTxt p = []
  · rw [if_pos hpe, hpe, List.append_nil]
  · rw [if_neg hpe]
    by_cases hcond : limit - st.curLen < (stripTxt p).length ∧ ¬ st.cur.isEmpty
    · rw [if_pos hcond, stTexts_packAppend, stTexts_flush]
    · rw [if_neg hcond, stTexts_packAppend]

theorem stTexts_foldl (limit : Nat) (name : Option Txt) :
    ∀ (pieces : List Txt) (st : PackSt),
      stTexts (pieces.foldl (packPiece limit name) st) =
        stTexts st ++ (pieces.map stripTxt).flatten := by
  intro pieces
  induction pieces with
  | nil => intro st; simp
  | cons p ps ih =>
    intro st
    rw [List.foldl_cons, ih, stTexts_packPiece]
    simp

theorem split_short (s : Txt) (limit : Nat) (h : s.length ≤ limit) :
    split_preserving_words s limit = some [s] := by
  unfold split_preserving_words
  rw [if_pos h]

theorem packFold_texts_short (limit : Nat) :
    ∀ (segs : List Seg) (st st' : PackSt),
      (∀ s ∈ segs, s.2.length ≤ limit ∧ stripTxt s.2 = s.2) →
      segs.foldlM (packSeg limit) st = some st' →
      stTexts st' = stTexts st ++ segsConcat segs := by
  intro segs
  induction segs with
  | nil =>
    intro st st' _ hfold
    rw [List.foldlM_nil] at hfold
    have heq : st = st' := by simpa using hfold
    subst heq
    simp [segsConcat]
  | cons seg segs ih =>
    intro st st' hgood hfold
    rw [List.foldlM_cons] at hfold
    have hseg : packSeg limit st seg =
        some ([seg.2].foldl (packPiece limit seg.1) st) := by
      unfold packSeg
      rw [split_short seg.2 limit (hgood seg (by simp)).1]
      rfl
    rw [hseg] at hfold
    have hrec := ih _ st' (fun s hs => hgood s (by simp [hs])) hfold
    rw [hrec, List.foldl_cons, List.foldl_nil, stTexts_packPiece,
      (hgood seg (by simp)).2]
    unfold segsConcat
    simp

theorem pack_roundtrip_short (segs : List Seg) (limit : Nat) (chunks : List Chunk)
    (hgood : ∀ s ∈ segs, s.2.length ≤ limit ∧ stripTxt s.2 = s.2)
    (h : pack_segments_into_chunks segs limit = some chunks) :
    fragsConcat chunks = segsConcat segs := by
  unfold pack_segments_into_chunks at h
  rcases Option.map_eq_some'.1 h with ⟨stF, hfold, hchunks⟩
  subst hchunks
  rw [flush_chunks_texts stF]
  have := packFold_texts_short limit segs ⟨[], [], 0⟩ stF hgood hfold
  rw [this]
  rfl

theorem parse_stripped (note : Txt) :
    ∀ s ∈ parse_notes_into_segments note, stripTxt s.2 = s.2 := by
  intro s hs
  exact stripTxt_eq_self s.2 (parse_good note s hs).2

/-!  Color assigner lemmas. -/

theorem lookupName_append_some (n : Txt) (l l2 : List (Txt × RGB)) (c : RGB)
    (h : lookupName n l = some c) : lookupName n (l ++ l2) = some c := by
  induction l with
  | nil => simp [lookupName] at h
  | cons p l ih =>
    unfold lookupName at h ⊢
    by_cases he : n = p.1
    · simpa [he] using h
    · rw [List.cons_append]
      simp only [if_neg he] at h ⊢
      exact ih h

theorem lookupName_append_new (n : Txt) (l : List (Txt × RGB)) (c : RGB)
    (h : lookupName n l = none) : lookupName n (l ++ [(n, c)]) = some c := by
  induction l with
  | nil => simp [lookupName]
  | cons p l ih =>
    unfold lookupName at h ⊢
    by_cases he : n = p.1
    · simp [he] at h
    · rw [List.cons_append]
      simp only [if_neg he] at h ⊢
      exact ih h

theorem color_state_mono (st : ColorState) (m : Option Txt) (n : Txt) (c : RGB)
    (h : lookupName n st.map = some c) :
    lookupName n ((get_color_for_name st m).2).map = some c := by
  cases m with
  | none => exact h
  | some nm =>
    unfold get_color_for_name
    dsimp only
    by_cases hne : nm = []
    · rw [if_pos hne]
      exact h
    · rw [if_neg hne]
      cases hfix : lookupName nm NAME_FIXED_COLORS with
      | some cf => exact h
      | none =>
        cases hmap : lookupName nm st.map with
        | some cm => exact h
        | none =>
          simp only
          exact lookupName_append_some n st.map _ c h

theorem runNames_mono :
    ∀ (l : List (Option Txt)) (st : ColorState) (n : Txt) (c : RGB),
      lookupName n st.map = some c → lookupName n (runNames st l).map = some c := by
  intro l
  induction l with
  | nil => intro st n c h; exact h
  | cons m l ih =>
    intro st n c h
    unfold runNames
    rw [List.foldl_cons]
    exact ih _ n c (color_state_mono st m n c h)

theorem color_first_lookup (st : ColorState) (n : Txt) (hne : n ≠ [])
    (hfix : lookupName n NAME_FIXED_COLORS = none) :
    lookupName n ((get_color_for_name st (some n)).2).map =
      some (get_color_for_name st (some n)).1 := by
  unfold get_color_for_name
  dsimp only
  rw [if_neg hne, hfix]
  cases hmap : lookupName n st.map with
  | some cm => exact hmap
  | none =>
    simp only
    exact lookupName_append_new n st.map _ hmap

theorem color_of_map_hit (st : ColorState) (n : Txt) (c : RGB) (hne : n ≠ [])
    (hfix : lookupName n NAME_FIXED_COLORS = none)
    (h : lookupName n st.map = some c) :
    (get_color_for_name st (some n)).1 = c := by
  unfold get_color_for_name
  dsimp only
  rw [if_neg hne, hfix, h]

theorem color_of_fixed (st : ColorState) (n : Txt) (c : RGB) (hne : n ≠ [])
    (hfix : lookupName n NAME_FIXED_COLORS = some c) :
    (get_color_for_name st (some n)).1 = c := by
  unfold get_color_for_name
  dsimp only
  rw [if_neg hne, hfix]

/-!  Layout lemmas. -/

theorem fragmentRun_snd (st : ColorState) (f : Seg) :
    (fragmentRun st f).2 = (get_color_for_name st f.1).2 := rfl

theorem buildRuns_mono :
    ∀ (ch : Chunk) (st : ColorState) (n : Txt) (c : RGB),
      lookupName n st.map = some c → lookupName n ((buildRuns st ch).2).map = some c := by
  intro ch
  induction ch with
  | nil => intro st n c h; exact h
  | cons f fs ih =>
    intro st n c h
    unfold buildRuns
    simp only
    exact ih _ n c (color_state_mono st f.1 n c h)

theorem slideForChunk_snd (st : ColorState) (idx total : Nat) (chunk : Chunk) :
    (slideForChunk st idx total chunk).2 = (buildRuns st chunk).2 := rfl

theorem slidesGo_mono :
    ∀ (cs : List Chunk) (total : Nat) (st : ColorState) (idx : Nat) (n : Txt) (c : RGB),
      lookupName n st.map = some c →
      lookupName n ((slidesGo total st idx cs).2).map = some c := by
  intro cs
  induction cs with
  | nil => intro total st idx n c h; exact h
  | cons ch cs ih =>
    intro total st idx n c h
    unfold slidesGo
    simp only
    exact ih total _ _ n c (buildRuns_mono ch st n c h)

theorem slidesForNote_mono (st : ColorState) (note : Txt)
    (out : List Slide × ColorState) (n : Txt) (c : RGB)
    (hout : slidesForNote st note = some out)
    (h : lookupName n st.map = some c) : lookupName n out.2.map = some c := by
  unfold slidesForNote at hout
  rcases Option.map_eq_some'.1 hout with ⟨chunks, _, hchunks⟩
  subst hchunks
  exact slidesGo_mono chunks chunks.length st 1 n c h

theorem create_mono :
    ∀ (notes : List Txt) (st : ColorState) (res : List Slide × ColorState) (n : Txt) (c : RGB),
      create_script_slides st notes = some res →
      lookupName n st.map = some c → lookupName n res.2.map = some c := by
  intro notes
  induction notes with
  | nil =>
    intro st res n c hres h
    unfold create_script_slides at hres
    simp at hres
    subst hres
    exact h
  | cons note notes ih =>
    intro st res n c hres h
    unfold create_script_slides at hres
    cases hnote : slidesForNote st note with
    | none => rw [hnote] at hres; simp at hres
    | some p =>
      rw [hnote] at hres
      simp only at hres
      rcases Option.map_eq_some'.1 hres with ⟨q, hq, hres2⟩
      subst hres2
      exact ih p.2 q n c hq (slidesForNote_mono st note p n c hnote h)

theorem slidesGo_page (total : Nat) :
    ∀ (cs : List Chunk) (st : ColorState) (idx : Nat),
      ∀ sl ∈ (slidesGo total st idx cs).1,
        ∃ j, idx ≤ j ∧ j < idx + cs.length ∧
          sl.page = (if total ≤ 1 then none else some (j, total)) := by
  intro cs
  induction cs with
  | nil => intro st idx sl hsl; simp [slidesGo] at hsl
  | cons ch cs ih =>
    intro st idx sl hsl
    unfold slidesGo at hsl
    simp only [List.mem_cons] at hsl
    rcases hsl with hsl | hsl
    · refine ⟨idx, Nat.le_refl _, by simp, ?_⟩
      subst hsl
      rfl
    · rcases ih _ (idx + 1) sl hsl with ⟨j, hj1, hj2, hj3⟩
      refine ⟨j, by omega, by simp; omega, hj3⟩

/-!  Claim theorems. -/

/-- Concrete note used to exhibit character loss in the split/pack
round-trip: 149 `'a'`s, a space, then a `'b'` (151 characters, budget 150).
The splitter cuts after the space; the packer strips the piece and the space
is lost. -/
def c1Note : Txt := List.replicate 149 'a' ++ [' ', 'b']

set_option maxRecDepth 40000 in
/-- C1 (counterexample): for the 151-character note `c1Note`, the
concatenation of all fragment texts across the chunks produced at the
program budget of 150 is NOT the concatenation of the merged segment texts —
the space before the final character is dropped by the packer's
`piece.strip()`. -/
theorem spec_c1_counterexample :
    (pack_segments_into_chunks (parse_notes_into_segments c1Note)
        MAX_CHARS_PER_SLIDE).map fragsConcat ≠
      some (segsConcat (parse_notes_into_segments c1Note)) := by decide

/-- C1 (amended): whenever every merged segment text of a note is within the
budget of 150 characters, concatenating the fragment texts across all chunks
of that note reconstructs exactly the concatenation of the merged segment
texts; in general the packer strips whitespace from each split piece, so the
round-trip can drop whitespace adjacent to split points of over-budget
segments. -/
theorem spec_c1_roundtrip_bounded (note : Txt) (chunks : List Chunk)
    (hshort : ∀ s ∈ parse_notes_into_segments note, s.2.length ≤ MAX_CHARS_PER_SLIDE)
    (h : pack_segments_into_chunks (parse_notes_into_segments note)
        MAX_CHARS_PER_SLIDE = some chunks) :
    fragsConcat chunks = segsConcat (parse_notes_into_segments note) := by
  refine pack_roundtrip_short _ _ chunks ?_ h
  intro s hs
  exact ⟨hshort s hs, parse_stripped note s hs⟩

/-- C1 (witness): the amended round-trip at the two-line note
`"《A》hi\nthere"`. -/
theorem spec_c1_roundtrip_bounded_witness :
    fragsConcat [[(some (("A").data), ("hithere").data)]] =
      segsConcat (parse_notes_into_segments (("《A》hi\nthere").data)) :=
  spec_c1_roundtrip_bounded (("《A》hi\nthere").data)
    [[(some (("A").data), ("hithere").data)]] (by decide) (by decide)

/-- C2 (counterexample): the speaker-color map and round-robin cursor are
module-level state, not per-request state.  Processing a first request whose
only unknown speaker is `C` changes the color that a second request assigns
to the unknown speaker `D` (pool slot 1, orange, instead of pool slot 0,
pink), so colors in the second request DO depend on the names seen in the
first. -/
theorem spec_c2_counterexample :
    firstRunColor (stateAfterRequest freshColorState [("《C》hi").data])
        [("《D》yo").data] ≠
      firstRunColor freshColorState [("《D》yo").data] := by decide

/-- C2 (amended): the map and cursor are module-level globals that persist
across conversion requests in the same process; every speaker-color binding
present when a request starts is still present, unchanged, when it ends, and
unknown-speaker colors of a later request therefore depend on the names seen
by earlier requests. -/
theorem spec_c2_globals_persist (st : ColorState) (notes : List Txt)
    (res : List Slide × ColorState) (n : Txt) (c : RGB)
    (hres : create_script_slides st notes = some res)
    (h : lookupName n st.map = some c) :
    lookupName n res.2.map = some c :=
  create_mono notes st res n c hres h

/-- C2 (witness): the binding `C ↦ pink` made by a first request survives a
second request that converts `"《D》yo"`. -/
theorem spec_c2_globals_persist_witness :
    lookupName (("C").data)
      (([({ runs := [(("《D》yo").data, ⟨0xFF, 0xA5, 0x00⟩)], page := none } : Slide)],
        ({ map := [((("C").data), ⟨0xFF, 0x40, 0xFF⟩), ((("D").data), ⟨0xFF, 0xA5, 0x00⟩)],
           autoIdx := 2 } : ColorState)) : List Slide × ColorState).2.map =
      some ⟨0xFF, 0x40, 0xFF⟩ :=
  spec_c2_globals_persist
    { map := [((("C").data), ⟨0xFF, 0x40, 0xFF⟩)], autoIdx := 1 } [("《D》yo").data]
    _ (("C").data) ⟨0xFF, 0x40, 0xFF⟩ (by decide) (by decide)

/-- C3 (counterexample): with budget 0 the packer does not reject the call:
on the empty segment sequence it simply proceeds and returns an empty chunk
list. -/
theorem spec_c3_counterexample :
    pack_segments_into_chunks [] 0 = some [] := by decide

/-- C3 (amended): the packer performs no budget validation at all.  With
budget 0 it proceeds: the empty segment sequence yields an empty chunk list,
and for any non-empty segment text the splitting loop makes no progress
(`cut = start`), so it never terminates — modelled here by the fuelled loop
returning `none` for every fuel bound.  No rejection ever occurs. -/
theorem spec_c3_no_validation :
    (∀ (s : Txt), s ≠ [] → ∀ (fuel : Nat), splitGo 0 fuel s = none) ∧
      pack_segments_into_chunks [] 0 = some [] := by
  constructor
  · intro s hs fuel
    induction fuel with
    | zero =>
      cases s with
      | nil => exact absurd rfl hs
      | cons c cs => rfl
    | succ fuel ih =>
      cases s with
      | nil => exact absurd rfl hs
      | cons c cs =>
        simp only [splitGo, List.take_zero]
        have hc : cutLen ([] : Txt) = 0 := rfl
        rw [hc, List.drop_zero, ih]
        rfl
  · decide

/-- C3 (witness): the budget-0 splitting loop on `"ab"` is still running
after 5 iterations (and, by the theorem, after any number). -/
theorem spec_c3_no_validation_witness : splitGo 0 5 (("ab").data) = none :=
  spec_c3_no_validation.1 (("ab").data) (by decide) 5

/-- C4 (counterexample): the marker pattern is matched with `re.match`, i.e.
only at the start of a line, so the single-line input
`"《A》hello《B》world《A》again"` does NOT produce the three segments
`[(A,hello), (B,world), (A,again)]`. -/
theorem spec_c4_counterexample :
    parse_notes_into_segments (("《A》hello《B》world《A》again").data) ≠
      [(some (("A").data), ("hello").data), (some (("B").data), ("world").data),
       (some (("A").data), ("again").data)] := by decide

/-- C4 (amended): markers are recognised only at line starts.  The
single-line input yields the single segment
`(A, "hello《B》world《A》again")`; the three-segment output arises when each
marker starts its own line. -/
theorem spec_c4_line_start_markers :
    parse_notes_into_segments (("《A》hello《B》world《A》again").data) =
        [(some (("A").data), ("hello《B》world《A》again").data)] ∧
      parse_notes_into_segments (("《A》hello\n《B》world\n《A》again").data) =
        [(some (("A").data), ("hello").data), (some (("B").data), ("world").data),
         (some (("A").data), ("again").data)] := by decide

/-- C5 (confirmed): for every segment sequence and positive budget, every
chunk produced by the packer that is not a single oversized fragment has a
fragment-length sum within the budget.  (In fact the bound holds for every
chunk; see C10.) -/
theorem spec_c5_chunk_budget (segs : List Seg) (limit : Nat) (chunks : List Chunk)
    (hl : 1 ≤ limit) (h : pack_segments_into_chunks segs limit = some chunks) :
    ∀ c ∈ chunks, ¬ (c.length = 1 ∧ limit < sumLen c) → sumLen c ≤ limit := by
  intro c hc _
  exact pack_chunks_le segs limit chunks hl h c hc

/-- C5 (witness): the single chunk packed from the segment `(none, "yo")` at
budget 150. -/
theorem spec_c5_chunk_budget_witness : sumLen [(none, ("yo").data)] ≤ 150 :=
  spec_c5_chunk_budget [(none, ("yo").data)] 150 [[(none, ("yo").data)]]
    (by decide) (by decide) [(none, ("yo").data)] (by decide) (by decide)

/-- C6 (counterexample): on the string `"a b\nX"` with budget 4 the window
is `"a b\n"`; the claim's rule cuts after the last boundary run (the final
newline), but Python's `$` also matches just before a trailing newline, so
the code cuts after the space instead — the splitter and the claim's
described splitter disagree. -/
theorem spec_c6_counterexample :
    split_preserving_words (("a b\nX").data) 4 ≠
      spec_split_preserving_words (("a b\nX").data) 4 := by decide

/-- C6 (amended): on every string containing no newline character, the
splitter scans greedily from the start taking windows of up to `limit`
characters and cuts each window after the last run of boundary characters
(which is exactly the run followed only by non-boundary characters up to the
window's end), or at the full window when it has no boundary character —
i.e. it agrees with `spec_split_preserving_words`, the specification's
algorithm.  Windows ending in a newline are the sole exception (Python's `$`
lookahead). -/
theorem spec_c6_split_newline_free (s : Txt) (limit : Nat)
    (h : ∀ c ∈ s, c ≠ '\n') :
    split_preserving_words s limit = spec_split_preserving_words s limit :=
  split_eq_spec_split s limit h

/-- C6 (witness): the agreement at `"abcd efgh"` with budget 5. -/
theorem spec_c6_split_newline_free_witness :
    split_preserving_words (("abcd efgh").data) 5 =
      spec_split_preserving_words (("abcd efgh").data) 5 :=
  spec_c6_split_newline_free (("abcd efgh").data) 5 (by decide)

/-- C7 (confirmed): within one run, (1) a second call of the color assigner
with the same name returns the same color as the first, regardless of the
calls made in between; (2) a name in the fixed table always returns its
fixed color, whatever the prior state; (3) from the fresh state, unknown
speakers `C`, `D`, `C` receive pool slot 0, pool slot 1, and again pool
slot 0. -/
theorem spec_c7_color_determinism :
    (∀ (st : ColorState) (n : Option Txt) (mids : List (Option Txt)),
      (get_color_for_name (runNames (get_color_for_name st n).2 mids) n).1 =
        (get_color_for_name st n).1) ∧
    (∀ (st : ColorState) (n : Txt) (c : RGB),
      lookupName n NAME_FIXED_COLORS = some c →
      (get_color_for_name st (some n)).1 = c) ∧
    colorTrace freshColorState
        [some (("C").data), some (("D").data), some (("C").data)] =
      [⟨0xFF, 0x40, 0xFF⟩, ⟨0xFF, 0xA5, 0x00⟩, ⟨0xFF, 0x40, 0xFF⟩] := by
  refine ⟨?_, ?_, by decide⟩
  · intro st n mids
    cases n with
    | none => rfl
    | some nm =>
      by_cases hne : nm = []
      · subst hne
        rfl
      · cases hfix : lookupName nm NAME_FIXED_COLORS with
        | some c =>
          rw [color_of_fixed _ nm c hne hfix, color_of_fixed _ nm c hne hfix]
        | none =>
          have h1 := color_first_lookup st nm hne hfix
          have h2 := runNames_mono mids _ nm _ h1
          exact color_of_map_hit _ nm _ hne hfix h2
  · intro st n c hfix
    have hne : n ≠ [] := by
      intro he
      subst he
      have : lookupName ([] : Txt) NAME_FIXED_COLORS = none := by decide
      rw [this] at hfix
      exact Option.noConfusion hfix
    exact color_of_fixed st n c hne hfix

/-- C7 (witness): the fixed name `仲條` returns its fixed cyan from the
fresh state. -/
theorem spec_c7_color_determinism_witness :
    (get_color_for_name freshColorState (some (("仲條").data))).1 =
      ⟨0x00, 0xFD, 0xFF⟩ :=
  spec_c7_color_determinism.2.1 freshColorState (("仲條").data)
    ⟨0x00, 0xFD, 0xFF⟩ (by decide)

/-- C8 (confirmed): for every input note text, every segment produced by the
segmenter has non-empty text, and no two adjacent segments share an equal
speaker name (including the no-speaker case, where both names are `none`). -/
theorem spec_c8_segment_invariants (note : Txt) :
    (∀ s ∈ parse_notes_into_segments note, s.2 ≠ []) ∧
      List.Chain' (fun a b => a.1 ≠ b.1) (parse_notes_into_segments note) :=
  ⟨fun s hs => (parse_good note s hs).1, parse_chain note⟩

/-- C9 (confirmed): a slide built for a note carries a page indicator iff
the note produced more than one chunk; when present, the indicator is
`(i, total)` with `total` the note's chunk count and `1 ≤ i ≤ total`. -/
theorem spec_c9_page_indicator (st : ColorState) (note : Txt)
    (chunks : List Chunk) (out : List Slide × ColorState)
    (hp : pack_segments_into_chunks (parse_notes_into_segments note)
        MAX_CHARS_PER_SLIDE = some chunks)
    (hout : slidesForNote st note = some out) :
    ∀ sl ∈ out.1, (sl.page.isSome ↔ 1 < chunks.length) ∧
      ∀ i t, sl.page = some (i, t) → t = chunks.length ∧ 1 ≤ i ∧ i ≤ t := by
  unfold slidesForNote at hout
  rw [hp] at hout
  simp only [Option.map_some'] at hout
  have hout2 : out = slidesGo chunks.length st 1 chunks := (Option.some.inj hout).symm
  subst hout2
  intro sl hsl
  rcases slidesGo_page chunks.length chunks st 1 sl hsl with ⟨j, hj1, hj2, hj3⟩
  by_cases ht : chunks.length ≤ 1
  · rw [if_pos ht] at hj3
    constructor
    · rw [hj3]
      simp
      omega
    · intro i t hit
      rw [hj3] at hit
      exact Option.noConfusion hit
  · rw [if_neg ht] at hj3
    constructor
    · rw [hj3]
      simp
      omega
    · intro i t hit
      rw [hj3] at hit
      have := Option.some.inj hit
      have hi : j = i := congrArg Prod.fst this
      have htt : chunks.length = t := congrArg Prod.snd this
      subst hi
      subst htt
      exact ⟨rfl, by omega, by omega⟩

/-- C9 (witness): the single-chunk note `"hi"` yields a slide with no page
indicator, satisfying both conjuncts. -/
theorem spec_c9_page_indicator_witness :
    ((({ runs := [(("hi").data, COLOR_WHITE)], page := none } : Slide)).page.isSome ↔
        1 < ([[(none, ("hi").data)]] : List Chunk).length) ∧
      ∀ i t, (({ runs := [(("hi").data, COLOR_WHITE)], page := none } : Slide)).page =
          some (i, t) →
        t = ([[(none, ("hi").data)]] : List Chunk).length ∧ 1 ≤ i ∧ i ≤ t :=
  spec_c9_page_indicator freshColorState (("hi").data) [[(none, ("hi").data)]]
    ([({ runs := [(("hi").data, COLOR_WHITE)], page := none } : Slide)], freshColorState)
    (by decide) (by decide)
    ({ runs := [(("hi").data, COLOR_WHITE)], page := none } : Slide) (by decide)

/-- C10 (confirmed): for every string and budget ≥ 1, every piece returned
by the splitter has length at most the budget; consequently every packed
chunk has fragment-length sum at most the budget unconditionally — the
single-oversized-fragment exception of the specification never actually
occurs. -/
theorem spec_c10_no_oversized :
    (∀ (s : Txt) (limit : Nat) (ps : List Txt), 1 ≤ limit →
      split_preserving_words s limit = some ps → ∀ p ∈ ps, p.length ≤ limit) ∧
    (∀ (segs : List Seg) (limit : Nat) (chunks : List Chunk), 1 ≤ limit →
      pack_segments_into_chunks segs limit = some chunks →
      ∀ c ∈ chunks, sumLen c ≤ limit) :=
  ⟨fun s limit ps hl h => split_piece_le s limit ps h (Or.inr hl),
   fun segs limit chunks hl h => pack_chunks_le segs limit chunks hl h⟩

/-- C10 (witness): both parts at concrete inputs — the piece `"hi"` from
splitting, and the chunk packed from `(none, "hi")`, at budget 150. -/
theorem spec_c10_no_oversized_witness :
    (("hi").data).length ≤ 150 ∧ sumLen [(none, ("hi").data)] ≤ 150 :=
  ⟨spec_c10_no_oversized.1 (("hi").data) 150 [("hi").data] (by decide) (by decide)
      (("hi").data) (by decide),
   spec_c10_no_oversized.2 [(none, ("hi").data)] 150 [[(none, ("hi").data)]]
      (by decide) (by decide) [(none, ("hi").data)] (by decide)⟩
